import Mathlib

/-!
# Net-Manage core: snapshot storage, collection orchestration, drift-diff engine

A shallow embedding of the Net-Manage core (collection orchestration,
snapshot storage and the drift-diff engine) together with proofs of the
specified properties.

The repository ships the orchestration notebook (`net-manage.ipynb`), which
drives the core, while the `netmanage` Python package itself
(`run_collectors`, `validators`, `helpers`) is not part of the source tree
here.  Definitions below that embed the missing package are therefore
modelled from the specification document; each such definition says so in
its doc comment.  The notebook's own code (the timestamp cell and the
collector loop) is embedded directly from the notebook.
-/

namespace NetManage

open List

/-- Modelled from the spec: the "small variant type (string/number/bool/null)"
used for dynamic, schema-free row records (spec §9; the Python source keeps
rows in loosely-typed pandas dataframes, absent cells being NaN/None). -/
inductive Value where
  | null : Value
  | bool (b : Bool) : Value
  | num (n : Int) : Value
  | str (s : String) : Value
deriving DecidableEq, Repr

/-! ### Total orders used for deterministic sorting

Bool-valued strict comparators, written so that they reduce inside the
kernel (the diff output ordering is a contract, spec §4.4 step 6, so the
engine needs a concrete total order on column names, timestamps and key
projections). -/

/-- Lexicographic strict comparison of character lists by code point. -/
def charListLtB : List Char → List Char → Bool
  | [], [] => false
  | [], _ :: _ => true
  | _ :: _, [] => false
  | a :: as, b :: bs =>
    if a.toNat < b.toNat then true
    else if b.toNat < a.toNat then false
    else charListLtB as bs

/-- Lexicographic strict comparison of strings by code point. -/
def strLtB (a b : String) : Bool := charListLtB a.data b.data

/-- Strict total order on `Value`: null < bool < num < str, payloads compared
by their own orders. -/
def Value.ltB : Value → Value → Bool
  | .null, .null => false
  | .null, _ => true
  | _, .null => false
  | .bool x, .bool y => !x && y
  | .bool _, _ => true
  | _, .bool _ => false
  | .num x, .num y => decide (x < y)
  | .num _, _ => true
  | _, .num _ => false
  | .str x, .str y => strLtB x y

/-- Lexicographic strict order on resource key projections. -/
def keyLtB : List Value → List Value → Bool
  | [], [] => false
  | [], _ :: _ => true
  | _ :: _, [] => false
  | a :: as, b :: bs =>
    if Value.ltB a b then true
    else if Value.ltB b a then false
    else keyLtB as bs

/-! ### The sort relations used by the Store and the Diff Engine -/

/-- Column names / timestamps in ascending order ("a comes no later than
b"). -/
abbrev strAscR (a b : String) : Prop := strLtB b a = false

/-- Timestamps in descending order, i.e. most recent first. -/
abbrev strDescR (a b : String) : Prop := strLtB a b = false

/-- Key projections in ascending order. -/
abbrev keyAscR (a b : List Value) : Prop := keyLtB b a = false

instance : DecidableRel strAscR := fun a b =>
  inferInstanceAs (Decidable (strLtB b a = false))

instance : DecidableRel strDescR := fun a b =>
  inferInstanceAs (Decidable (strLtB a b = false))

instance : DecidableRel keyAscR := fun a b =>
  inferInstanceAs (Decidable (keyLtB b a = false))

/-- A row is a record mapping column names to values. -/
abbrev Row := List (String × Value)

/-- Modelled from the spec: reading a column of a row, normalizing the
absent/null representations identically everywhere (spec §4.4 step 5):
a column that is missing from the record reads as `Value.null`. -/
def getCol (r : Row) (c : String) : Value :=
  match r.find? (fun p => p.1 == c) with
  | some p => p.2
  | none => .null

/-- The column names present in a row record. -/
def rowCols (r : Row) : List String := r.map Prod.fst

/-- Modelled from the spec: the projection of a row onto a resource key
(the configuration-declared column subset that aligns rows across
generations, spec §3). -/
def projKey (key : List String) (r : Row) : List Value :=
  key.map (getCol r)

/-! ## Snapshot Store (modelled from spec §4.2) -/

/-- Modelled from the spec: a stored table.  Every stored row is the original
collector record plus one injected timestamp field (spec §6); the timestamp
is kept as the first component of each stored row.  The schema is the ordered
sequence of column names excluding the timestamp column. -/
structure Table where
  schema : List String
  rows : List (String × Row)
deriving DecidableEq, Repr

/-- Modelled from the spec: the Snapshot Store, mapping table names to
tables.  `broken` lists the tables whose underlying storage currently fails,
so that `WriteError` (spec §4.2) is representable. -/
structure Store where
  tables : List (String × Table)
  broken : List String
deriving DecidableEq, Repr

/-- Modelled from the spec: the three write modes of `write` (spec §4.2;
the repository exposes them as the `database_method` configuration value
'fail' | 'replace' | 'append'). -/
inductive WriteMode where
  | append
  | replace
  | failIfExists
deriving DecidableEq, Repr

/-- Modelled from the spec: the storage error taxonomy (spec §4.2, §7). -/
inductive StoreError where
  | tableNotFound
  | tableExists
  | writeError
deriving DecidableEq, Repr

/-- The distinct generation timestamps stored in a table. -/
def Table.stamps (t : Table) : List String :=
  (t.rows.map Prod.fst).dedup

/-- The rows of one generation of a table (the rows carrying timestamp
`ts`), in stored order, without the injected timestamp field. -/
def Table.genRows (t : Table) (ts : String) : List Row :=
  (t.rows.filter (fun p => p.1 == ts)).map Prod.snd

def Store.getTable (s : Store) (name : String) : Option Table :=
  (s.tables.find? (fun p => p.1 == name)).map Prod.snd

/-- Install `t` as the table named `name`. -/
def Store.setTable (s : Store) (name : String) (t : Table) : Store :=
  { s with tables := (name, t) :: s.tables.filter (fun p => !(p.1 == name)) }

/-- Appending column names to a schema, keeping only the ones not already
present (schema widening adds new columns, spec §4.2). -/
def addCols : List String → List String → List String
  | acc, [] => acc
  | acc, c :: cs => addCols (if acc.contains c then acc else acc ++ [c]) cs

/-- Modelled from the spec: schema widening — the union of the stored schema
with the column sets of the incoming rows, new columns appended (spec §4.2:
"the store widens the schema (new columns added as nullable) rather than
failing"). -/
def widen : List String → List Row → List String
  | schema, [] => schema
  | schema, r :: rows => widen (addCols schema (rowCols r)) rows

/-- Tag every incoming row with the generation timestamp. -/
def tagRows (ts : String) (rows : List Row) : List (String × Row) :=
  rows.map (fun r => (ts, r))

/-- Modelled from the spec: `write(tableName, rows, timestamp, mode)`
(spec §4.2).  The whole call is atomic: it returns either an error together
with the unchanged store, or no error together with the updated store in
which the entire row set has become one generation. -/
def Store.write (s : Store) (name : String) (rows : List Row) (ts : String)
    (mode : WriteMode) : Option StoreError × Store :=
  if s.broken.contains name then (some .writeError, s)
  else
    match mode with
    | .append =>
      match s.getTable name with
      | none => (none, s.setTable name ⟨widen [] rows, tagRows ts rows⟩)
      | some t =>
          (none, s.setTable name ⟨widen t.schema rows, t.rows ++ tagRows ts rows⟩)
    | .replace => (none, s.setTable name ⟨widen [] rows, tagRows ts rows⟩)
    | .failIfExists =>
      match s.getTable name with
      | some _ => (some .tableExists, s)
      | none => (none, s.setTable name ⟨widen [] rows, tagRows ts rows⟩)

/-- Generation timestamps sorted most-recent first (timestamps are compared
by their total order; the run timestamps of spec §3 are monotonically
increasing, so larger means more recent). -/
def sortStampsDesc (l : List String) : List String :=
  List.insertionSort strDescR l

/-- Modelled from the spec: `readLatestGenerations(tableName, n)` returns
the `n` most recent distinct timestamps' rows, most-recent first; fails with
`TableNotFound` if the table was never written; returns fewer than `n`
generations if history is short (spec §4.2). -/
def Store.readLatestGenerations (s : Store) (name : String) (n : Nat) :
    Except StoreError (List (String × List Row)) :=
  match s.getTable name with
  | none => .error .tableNotFound
  | some t =>
      .ok (((sortStampsDesc t.stamps).take n).map (fun ts => (ts, t.genRows ts)))

/-- Modelled from the spec: `readSchema(tableName)` (spec §4.2). -/
def Store.readSchema (s : Store) (name : String) : Except StoreError (List String) :=
  match s.getTable name with
  | none => .error .tableNotFound
  | some t => .ok t.schema

/-! ## Drift-Diff Engine (modelled from spec §4.4) -/

/-- Modelled from the spec: the three transition kinds of a Diff Record
(spec §3). -/
inductive TransitionKind where
  | appeared
  | disappeared
  | changed
deriving DecidableEq, Repr

/-- Modelled from the spec: a Diff Record — (resource key values, changed
field name, previous value, current value, transition kind) (spec §3). -/
structure DiffRecord where
  key : List Value
  field : String
  previous : Value
  current : Value
  kind : TransitionKind
deriving DecidableEq, Repr

/-- Modelled from the spec: the errors a `diff` call can surface (spec §4.4,
§7). -/
inductive DiffError where
  | tableNotFound
  | duplicateResourceKey
deriving DecidableEq, Repr

/-- The strict order "strictly earlier by (resource key projection, field
name)" on Diff Records; `diff` output is sorted by it (spec §4.4 step 6). -/
def recBefore (a b : DiffRecord) : Prop :=
  keyLtB a.key b.key = true ∨ (a.key = b.key ∧ strLtB a.field b.field = true)

/-- A generation has a duplicate resource key when two of its rows have the
same projection onto the key (spec §4.4 step 2). -/
def hasDupKey (key : List String) (rows : List Row) : Prop :=
  ¬ (rows.map (projKey key)).Nodup

instance (key : List String) (rows : List Row) : Decidable (hasDupKey key rows) :=
  inferInstanceAs (Decidable ¬ _)

/-- The unique row of a generation whose key projection is `kv`, if any. -/
def findByKey (key : List String) (rows : List Row) (kv : List Value) : Option Row :=
  rows.find? (fun r => decide (projKey key r = kv))

/-- Key projections sorted ascending. -/
def sortKeysAsc (l : List (List Value)) : List (List Value) :=
  List.insertionSort keyAscR l

/-- Column names sorted ascending. -/
def sortColsAsc (l : List String) : List String :=
  List.insertionSort strAscR l

/-- Modelled from the spec: the monitored non-key columns of a table, in the
order the sorted diff output walks them (spec §4.4 steps 3-6). -/
def nonKeyCols (schema : List String) (key : List String) : List String :=
  sortColsAsc (schema.filter (fun c => ¬ key.contains c)).dedup

/-- Modelled from the spec: every distinct resource key projection present
in either of the two generations, sorted ascending (spec §4.4 steps 3-6). -/
def allKeys (key : List String) (newer older : List Row) : List (List Value) :=
  sortKeysAsc ((newer.map (projKey key) ++ older.map (projKey key)).dedup)

/-- Modelled from the spec: the Diff Records for one resource key projection
(spec §4.4 steps 3-5): `appeared` rows emit one record per monitored column
with previous = null, `disappeared` rows one record per monitored column with
current = null, rows present in both one `changed` record per monitored
column whose value differs. -/
def recordsForKey (nonKey : List String) (key : List String)
    (newer older : List Row) (kv : List Value) : List DiffRecord :=
  match findByKey key newer kv, findByKey key older kv with
  | some rn, some ro =>
      (nonKey.filter (fun c => decide (getCol rn c ≠ getCol ro c))).map
        (fun c => ⟨kv, c, getCol ro c, getCol rn c, .changed⟩)
  | some rn, none =>
      nonKey.map (fun c => ⟨kv, c, .null, getCol rn c, .appeared⟩)
  | none, some ro =>
      nonKey.map (fun c => ⟨kv, c, getCol ro c, .null, .disappeared⟩)
  | none, none => []

/-- Modelled from the spec: the full Diff Record sequence for two
generations, sorted by (resource key projection, field name) (spec §4.4). -/
def diffRecords (schema : List String) (key : List String)
    (newer older : List Row) : List DiffRecord :=
  (allKeys key newer older).flatMap (recordsForKey (nonKeyCols schema key) key newer older)

/-- Modelled from the spec: the comparison step of `diff` on the (at most
two) newest generations: fewer than two generations means an empty diff, not
an error (spec §4.4 step 1); fail with `DuplicateResourceKey` if either
generation has two rows with the same key projection (step 2); otherwise
emit the sorted Diff Records (steps 3-6). -/
def diffGens (schema key : List String) :
    List (String × List Row) → Except DiffError (List DiffRecord)
  | (_, newer) :: (_, older) :: _ =>
    if hasDupKey key newer ∨ hasDupKey key older then .error .duplicateResourceKey
    else .ok (diffRecords schema key newer older)
  | _ => .ok []

/-- Modelled from the spec: `diff(tableName, resourceKey)` (spec §4.4):
read the two newest generations of the table and compare them. -/
def Store.diff (s : Store) (name : String) (key : List String) :
    Except DiffError (List DiffRecord) :=
  match s.getTable name with
  | none => .error .tableNotFound
  | some t =>
      diffGens t.schema key
        (((sortStampsDesc t.stamps).take 2).map (fun u => (u, t.genRows u)))

/-! ## Collector Registry and Collection Orchestrator (modelled from
spec §4.1, §4.3) -/

/-- Modelled from the spec: a Collector Definition — platform type,
collector name, the callable contract `invoke(device_group, timestamp) ->
(rows | failure)` (spec §3), plus the collector-declared target table and
write mode used by the Orchestrator's write step (spec §4.3 step 4). -/
structure CollectorDef where
  platform : String
  name : String
  invoke : String → String → Except String (List Row)
  tableName : String
  mode : WriteMode

/-- Modelled from the spec: `resolve(platformType, name)` over the Collector
Registry's mapping (spec §4.1). -/
def resolve (reg : List CollectorDef) (platform name : String) : Option CollectorDef :=
  reg.find? (fun c => c.platform == platform && c.name == name)

/-- An Execution Plan Row: (platform type, device group, collector name)
(spec §3; in the notebook these are the `ansible_os`, `hostgroup` and
`collector` columns of `df_collectors`). -/
structure PlanRow where
  platform : String
  deviceGroup : String
  collector : String
deriving DecidableEq, Repr

/-- Modelled from the spec: the tagged per-plan-row outcome collected into
the run report (spec §4.3, §9). -/
inductive Outcome where
  | success
  | noDataSkipped
  | planResolutionFailure
  | collectionFailure (cause : String)
  | writeFailure
deriving DecidableEq, Repr

/-- Modelled from the spec: processing of one plan row by the Orchestrator
(spec §4.3 steps 1-4): resolve the collector, invoke it, skip the write on
zero rows, otherwise write through the Snapshot Store with the
collector-declared mode.  The function is total, so no individual row ever
raises; every failure becomes an outcome paired with the store to continue
with. -/
def stepRow (reg : List CollectorDef) (ts : String) (s : Store) (row : PlanRow) :
    Outcome × Store :=
  match resolve reg row.platform row.collector with
  | none => (.planResolutionFailure, s)
  | some c =>
    match c.invoke row.deviceGroup ts with
    | .error e => (.collectionFailure e, s)
    | .ok [] => (.noDataSkipped, s)
    | .ok rows =>
      match s.write c.tableName rows ts c.mode with
      | (some _, s') => (.writeFailure, s')
      | (none, s') => (.success, s')

/-- Modelled from the spec: `run(plan, runTimestamp)` — process the plan
rows in the given order, collecting one outcome per row into the report
(spec §4.3). -/
def run (reg : List CollectorDef) (plan : List PlanRow) (ts : String) (s : Store) :
    List Outcome × Store :=
  match plan with
  | [] => ([], s)
  | row :: rest =>
    let p := stepRow reg ts s row
    let q := run reg rest ts p.2
    (p.1 :: q.1, q.2)

/-! ## The notebook's Run Collectors cell (embedded from
`src/net-manage.ipynb`) -/

/-- A wall-clock instant as the notebook's `dt.datetime.now()` sees it. -/
structure DateTime where
  year : Nat
  month : Nat
  day : Nat
  hour : Nat
  minute : Nat
  second : Nat
deriving DecidableEq, Repr

/-- Zero-padding to two digits, as `strftime` does for `%m`, `%d`, `%H`,
`%M`. -/
def pad2 (n : Nat) : String :=
  if n < 10 then "0" ++ toString n else toString n

/-- Zero-padding to four digits, as `strftime` does for `%Y`. -/
def pad4 (n : Nat) : String :=
  if n < 10 then "000" ++ toString n
  else if n < 100 then "00" ++ toString n
  else if n < 1000 then "0" ++ toString n
  else toString n

/-- The notebook's `timestamp.strftime('%Y-%m-%d_%H%M')`: minute resolution,
the seconds of the instant are discarded. -/
def strftimeRunFormat (d : DateTime) : String :=
  pad4 d.year ++ "-" ++ pad2 d.month ++ "-" ++ pad2 d.day ++ "_" ++
    pad2 d.hour ++ pad2 d.minute

/-- One `rc.collect(ansible_os, collector, hostgroup, timestamp)` invocation
issued by the notebook's Run Collectors cell. -/
structure CollectCall where
  ansibleOs : String
  collector : String
  hostgroup : String
  timestamp : String
deriving DecidableEq, Repr

/-- The observable effects of the notebook's Run Collectors cell: the
`rc.add_to_db` calls it issues directly (table name paired with the
timestamp argument) and the `rc.collect` invocations of its collector
loop. -/
structure RunCellTrace where
  dbWrites : List (String × String)
  collectCalls : List CollectCall
deriving DecidableEq, Repr

/-- The notebook's Run Collectors cell: it computes
`timestamp = dt.datetime.now().strftime('%Y-%m-%d_%H%M')` once, "so it will
be consistent for all collectors", then (a) if `palo_alto_serials` is
non-empty and `panorama_get_managed_devices` was not selected, runs that
collector per Panorama hostgroup and calls
`rc.add_to_db('PANOS_PANORAMA_MANAGED_DEVICES', result, timestamp, ...)` for
each non-empty result, and (b) iterates `df_collectors`, calling
`rc.collect(ansible_os, collector, hostgroup, timestamp)` for every row. -/
def runCollectorsCell (now : DateTime) (paloAltoSerials : List String)
    (panoramaHostgroups : List String) (panoramaResult : String → List Row)
    (dfCollectors : List PlanRow) : RunCellTrace :=
  let timestamp := strftimeRunFormat now
  let panoWrites :=
    if paloAltoSerials ≠ [] ∧
        ¬ (dfCollectors.map PlanRow.collector).contains "panorama_get_managed_devices" then
      (panoramaHostgroups.filter (fun hg => ¬ (panoramaResult hg).isEmpty)).map
        (fun _ => ("PANOS_PANORAMA_MANAGED_DEVICES", timestamp))
    else []
  { dbWrites := panoWrites,
    collectCalls := dfCollectors.map
      (fun r => ⟨r.platform, r.collector, r.deviceGroup, timestamp⟩) }

/-! ## Concrete fixtures

Small concrete rows, stores and collectors mirroring the spec's scenarios
(§8); the witness theorems below instantiate the general theorems on them. -/

def poolRowUp : Row := [("pool", .str "P1"), ("member", .str "10.0.0.1"), ("status", .str "up")]

def poolRowDown : Row :=
  [("pool", .str "P1"), ("member", .str "10.0.0.1"), ("status", .str "down")]

def emptyStore : Store := ⟨[], []⟩

def poolStore1 : Store := (emptyStore.write "pool_members" [poolRowUp] "2024-01-01_0900" .append).2

def poolStore2 : Store := (poolStore1.write "pool_members" [poolRowDown] "2024-01-01_0905" .append).2

def poolTable1 : Table := ⟨["pool", "member", "status"], [("2024-01-01_0900", poolRowUp)]⟩

def poolTable2 : Table :=
  ⟨["pool", "member", "status"],
    [("2024-01-01_0900", poolRowUp), ("2024-01-01_0905", poolRowDown)]⟩

/-- `poolStore2` with the stored rows physically permuted. -/
def poolStorePerm : Store :=
  ⟨[("pool_members", ⟨["pool", "member", "status"],
      [("2024-01-01_0905", poolRowDown), ("2024-01-01_0900", poolRowUp)]⟩)], []⟩

def idRowA : Row := [("id", .str "A")]

def idRowBv : Row := [("id", .str "B"), ("v", .num 3)]

def idStore1 : Store := (emptyStore.write "t" [idRowA] "T1" .append).2

def idTable1 : Table := ⟨["id"], [("T1", idRowA)]⟩

def dupStore : Store := (idStore1.write "t" [idRowA, idRowA] "T2" .append).2

def dupTable : Table := ⟨["id"], [("T1", idRowA), ("T2", idRowA), ("T2", idRowA)]⟩

def failingCollector : CollectorDef :=
  ⟨"cisco.ios", "arp_table", fun _ _ => .error "device unreachable", "ARP_TABLE", .append⟩

def emptyCollector : CollectorDef :=
  ⟨"cisco.ios", "interface_summary", fun _ _ => .ok [], "INTERFACE_SUMMARY", .append⟩

def sampleReg : List CollectorDef := [failingCollector, emptyCollector]

def failingRow : PlanRow := ⟨"cisco.ios", "ios_routers", "arp_table"⟩

def emptyRow : PlanRow := ⟨"cisco.ios", "ios_routers", "interface_summary"⟩

def brokenStore : Store := ⟨[], ["pool_members"]⟩

def nowSample : DateTime := ⟨2024, 1, 1, 9, 0, 30⟩

def nowSample2 : DateTime := ⟨2024, 1, 1, 9, 0, 45⟩


/-! ## Order properties of the comparators -/

theorem charListLtB_irrefl : ∀ l : List Char, charListLtB l l = false := by
  intro l
  induction l with
  | nil => rfl
  | cons a as ih => simp [charListLtB, ih]

theorem charListLtB_asymm : ∀ l₁ l₂ : List Char,
    charListLtB l₁ l₂ = true → charListLtB l₂ l₁ = false := by
  intro l₁
  induction l₁ with
  | nil => intro l₂ h; cases l₂ <;> simp [charListLtB] at h ⊢
  | cons a as ih =>
    intro l₂ h
    cases l₂ with
    | nil => simp [charListLtB] at h
    | cons b bs =>
      simp only [charListLtB] at h ⊢
      rcases Nat.lt_trichotomy a.toNat b.toNat with hlt | heq | hgt
      · simp [hlt, Nat.not_lt.mpr (Nat.le_of_lt hlt)]
      · simp [heq, Nat.lt_irrefl] at h ⊢
        exact ih bs h
      · simp [hgt, Nat.not_lt.mpr (Nat.le_of_lt hgt)] at h

theorem charListLtB_trans : ∀ l₁ l₂ l₃ : List Char,
    charListLtB l₁ l₂ = true → charListLtB l₂ l₃ = true → charListLtB l₁ l₃ = true := by
  intro l₁
  induction l₁ with
  | nil =>
    intro l₂ l₃ h₁ h₂
    cases l₂ with
    | nil => simp [charListLtB] at h₁
    | cons b bs => cases l₃ with
      | nil => simp [charListLtB] at h₂
      | cons c cs => rfl
  | cons a as ih =>
    intro l₂ l₃ h₁ h₂
    cases l₂ with
    | nil => simp [charListLtB] at h₁
    | cons b bs =>
      cases l₃ with
      | nil => simp [charListLtB] at h₂
      | cons c cs =>
        simp only [charListLtB] at h₁ h₂ ⊢
        rcases Nat.lt_trichotomy a.toNat b.toNat with hab | hab | hab
        · rcases Nat.lt_trichotomy b.toNat c.toNat with hbc | hbc | hbc
          · simp [Nat.lt_trans hab hbc]
          · simp [hbc ▸ hab]
          · simp [hbc, Nat.not_lt.mpr (Nat.le_of_lt hbc)] at h₂
        · rcases Nat.lt_trichotomy b.toNat c.toNat with hbc | hbc | hbc
          · simp [hab ▸ hbc]
          · have hac : a.toNat = c.toNat := hab.trans hbc
            have h₁' : charListLtB as bs = true := by
              simpa [hab, Nat.lt_irrefl] using h₁
            have h₂' : charListLtB bs cs = true := by
              simpa [hbc, Nat.lt_irrefl] using h₂
            simp [hac, Nat.lt_irrefl]
            exact ih bs cs h₁' h₂'
          · simp [hbc, Nat.not_lt.mpr (Nat.le_of_lt hbc)] at h₂
        · simp [hab, Nat.not_lt.mpr (Nat.le_of_lt hab)] at h₁

theorem charListLtB_connex : ∀ l₁ l₂ : List Char,
    charListLtB l₁ l₂ = false → charListLtB l₂ l₁ = false → l₁ = l₂ := by
  intro l₁
  induction l₁ with
  | nil => intro l₂ h₁ _; cases l₂ with
    | nil => rfl
    | cons b bs => simp [charListLtB] at h₁
  | cons a as ih =>
    intro l₂ h₁ h₂
    cases l₂ with
    | nil => simp [charListLtB] at h₂
    | cons b bs =>
      simp only [charListLtB] at h₁ h₂
      rcases Nat.lt_trichotomy a.toNat b.toNat with hab | hab | hab
      · simp [hab] at h₁
      · have hc : a = b := Char.ext (UInt32.toNat.inj hab)
        subst hc
        simp [Nat.lt_irrefl] at h₁ h₂
        rw [ih bs h₁ h₂]
      · simp [hab, Nat.not_lt.mpr (Nat.le_of_lt hab)] at h₂

theorem strLtB_irrefl (a : String) : strLtB a a = false :=
  charListLtB_irrefl a.data

theorem strLtB_asymm {a b : String} (h : strLtB a b = true) : strLtB b a = false :=
  charListLtB_asymm a.data b.data h

theorem strLtB_trans {a b c : String} (h₁ : strLtB a b = true) (h₂ : strLtB b c = true) :
    strLtB a c = true :=
  charListLtB_trans a.data b.data c.data h₁ h₂

theorem strLtB_connex {a b : String} (h₁ : strLtB a b = false) (h₂ : strLtB b a = false) :
    a = b := by
  cases a; cases b
  exact congrArg String.mk (charListLtB_connex _ _ h₁ h₂)

theorem Value.ltB_irrefl : ∀ a : Value, Value.ltB a a = false := by
  intro a
  cases a with
  | null => rfl
  | bool b => cases b <;> rfl
  | num n => simp [Value.ltB]
  | str s => simp [Value.ltB, strLtB_irrefl]

theorem Value.ltB_asymm : ∀ {a b : Value}, Value.ltB a b = true → Value.ltB b a = false := by
  intro a b h
  cases a <;> cases b <;> simp_all [Value.ltB] <;> first
    | omega
    | exact strLtB_asymm h

theorem Value.ltB_trans : ∀ {a b c : Value}, Value.ltB a b = true → Value.ltB b c = true →
    Value.ltB a c = true := by
  intro a b c h₁ h₂
  cases a <;> cases b <;> cases c <;> simp_all [Value.ltB] <;> first
    | omega
    | exact strLtB_trans h₁ h₂

theorem Value.ltB_connex : ∀ {a b : Value}, Value.ltB a b = false → Value.ltB b a = false →
    a = b := by
  intro a b h₁ h₂
  cases a <;> cases b <;> simp_all [Value.ltB] <;> first
    | omega
    | exact strLtB_connex h₁ h₂
    | (rename_i x y; cases x <;> cases y <;> simp_all)

theorem keyLtB_irrefl : ∀ l : List Value, keyLtB l l = false := by
  intro l
  induction l with
  | nil => rfl
  | cons a as ih => simp [keyLtB, Value.ltB_irrefl, ih]

theorem keyLtB_asymm : ∀ {l₁ l₂ : List Value},
    keyLtB l₁ l₂ = true → keyLtB l₂ l₁ = false := by
  intro l₁
  induction l₁ with
  | nil => intro l₂ h; cases l₂ <;> simp [keyLtB] at h ⊢
  | cons a as ih =>
    intro l₂ h
    cases l₂ with
    | nil => simp [keyLtB] at h
    | cons b bs =>
      simp only [keyLtB] at h ⊢
      cases hab : Value.ltB a b with
      | true => simp [Value.ltB_asymm hab]
      | false =>
        cases hba : Value.ltB b a with
        | true => simp [hab, hba] at h
        | false =>
          simp [hab, hba] at h ⊢
          exact ih h

theorem keyLtB_trans : ∀ {l₁ l₂ l₃ : List Value},
    keyLtB l₁ l₂ = true → keyLtB l₂ l₃ = true → keyLtB l₁ l₃ = true := by
  intro l₁
  induction l₁ with
  | nil =>
    intro l₂ l₃ h₁ h₂
    cases l₂ with
    | nil => simp [keyLtB] at h₁
    | cons b bs => cases l₃ with
      | nil => simp [keyLtB] at h₂
      | cons c cs => rfl
  | cons a as ih =>
    intro l₂ l₃ h₁ h₂
    cases l₂ with
    | nil => simp [keyLtB] at h₁
    | cons b bs =>
      cases l₃ with
      | nil => simp [keyLtB] at h₂
      | cons c cs =>
        simp only [keyLtB] at h₁ h₂ ⊢
        cases hab : Value.ltB a b with
        | true =>
          cases hbc : Value.ltB b c with
          | true => simp [Value.ltB_trans hab hbc]
          | false =>
            cases hcb : Value.ltB c b with
            | true => simp [hbc, hcb] at h₂
            | false =>
              have : b = c := Value.ltB_connex hbc hcb
              subst this
              simp [hab]
        | false =>
          cases hba : Value.ltB b a with
          | true => simp [hab, hba] at h₁
          | false =>
            have : a = b := Value.ltB_connex hab hba
            subst this
            have h₁' : keyLtB as bs = true := by simpa [hab] using h₁
            cases hac : Value.ltB a c with
            | true => simp [hac]
            | false =>
              cases hca : Value.ltB c a with
              | true => simp [hac, hca] at h₂
              | false =>
                have h₂' : keyLtB bs cs = true := by simpa [hac, hca] using h₂
                simp [hac, hca]
                exact ih h₁' h₂'

theorem keyLtB_connex : ∀ {l₁ l₂ : List Value},
    keyLtB l₁ l₂ = false → keyLtB l₂ l₁ = false → l₁ = l₂ := by
  intro l₁
  induction l₁ with
  | nil => intro l₂ h₁ _; cases l₂ with
    | nil => rfl
    | cons b bs => simp [keyLtB] at h₁
  | cons a as ih =>
    intro l₂ h₁ h₂
    cases l₂ with
    | nil => simp [keyLtB] at h₂
    | cons b bs =>
      simp only [keyLtB] at h₁ h₂
      cases hab : Value.ltB a b with
      | true => simp [hab] at h₁
      | false =>
        cases hba : Value.ltB b a with
        | true => simp [hab, hba] at h₂
        | false =>
          have : a = b := Value.ltB_connex hab hba
          subst this
          simp [hab, hba] at h₁ h₂
          rw [ih h₁ h₂]

/-- Negated strict Bool comparators are total. -/
theorem notLtB_total {α : Type _} (lt : α → α → Bool)
    (asymm : ∀ {x y : α}, lt x y = true → lt y x = false) (a b : α) :
    lt a b = false ∨ lt b a = false := by
  cases h : lt a b with
  | false => exact Or.inl rfl
  | true => exact Or.inr (asymm h)

/-- Negated strict Bool comparators are transitive. -/
theorem notLtB_trans {α : Type _} (lt : α → α → Bool)
    (ltTrans : ∀ {x y z : α}, lt x y = true → lt y z = true → lt x z = true)
    (connex : ∀ {x y : α}, lt x y = false → lt y x = false → x = y)
    {a b c : α} (h₁ : lt b a = false) (h₂ : lt c b = false) : lt c a = false := by
  cases h : lt c a with
  | false => rfl
  | true =>
    cases hbc : lt b c with
    | true => exact absurd (ltTrans hbc h) (by simp [h₁])
    | false =>
      have hbceq : b = c := connex hbc h₂
      subst hbceq
      exact absurd h (by simp [h₁])

instance : IsTotal String strAscR :=
  ⟨fun a b => notLtB_total strLtB (fun h => strLtB_asymm h) b a⟩

instance : IsTrans String strAscR :=
  ⟨fun _ _ _ h₁ h₂ =>
    notLtB_trans strLtB (fun ha hb => strLtB_trans ha hb) (fun ha hb => strLtB_connex ha hb) h₁ h₂⟩

instance : IsAntisymm String strAscR :=
  ⟨fun _ _ h₁ h₂ => strLtB_connex h₂ h₁⟩

instance : IsTotal String strDescR :=
  ⟨fun a b => notLtB_total strLtB (fun h => strLtB_asymm h) a b⟩

instance : IsTrans String strDescR :=
  ⟨fun _ _ _ h₁ h₂ =>
    notLtB_trans strLtB (fun ha hb => strLtB_trans ha hb) (fun ha hb => strLtB_connex ha hb) h₂ h₁⟩

instance : IsAntisymm String strDescR :=
  ⟨fun _ _ h₁ h₂ => strLtB_connex h₁ h₂⟩

instance : IsTotal (List Value) keyAscR :=
  ⟨fun a b => notLtB_total keyLtB (fun h => keyLtB_asymm h) b a⟩

instance : IsTrans (List Value) keyAscR :=
  ⟨fun _ _ _ h₁ h₂ =>
    notLtB_trans keyLtB (fun ha hb => keyLtB_trans ha hb) (fun ha hb => keyLtB_connex ha hb) h₁ h₂⟩

instance : IsAntisymm (List Value) keyAscR :=
  ⟨fun _ _ h₁ h₂ => keyLtB_connex h₂ h₁⟩

/-! ## General list lemmas -/

theorem find?_eq_head?_filter {α : Type _} (p : α → Bool) :
    ∀ l : List α, l.find? p = (l.filter p).head? := by
  intro l
  induction l with
  | nil => rfl
  | cons a as ih =>
    by_cases h : p a
    · simp [List.find?_cons_of_pos _ h, List.filter_cons_of_pos h]
    · rw [List.find?_cons_of_neg _ (by simp [h]), List.filter_cons_of_neg (by simp [h]), ih]

/-- `find?` does not depend on the order of the list when at most one element
satisfies the predicate. -/
theorem find?_perm_of_subsingleton {α : Type _} {l₁ l₂ : List α} (hp : l₁ ~ l₂)
    (p : α → Bool) (hu : (l₁.filter p).length ≤ 1) : l₁.find? p = l₂.find? p := by
  rw [find?_eq_head?_filter, find?_eq_head?_filter]
  have hperm : l₁.filter p ~ l₂.filter p := hp.filter p
  cases h₁ : l₁.filter p with
  | nil =>
    rw [h₁] at hperm
    rw [← hperm.nil_eq]
  | cons a t =>
    rw [h₁] at hperm hu
    cases t with
    | nil => rw [← List.singleton_perm.mp hperm]
    | cons b u => simp at hu

/-- A list of rows with pairwise-distinct key projections has at most one row
projecting to any given key value. -/
theorem filter_key_length_le_one {key : List String} {rows : List Row}
    (hnd : (rows.map (projKey key)).Nodup) (kv : List Value) :
    (rows.filter (fun r => decide (projKey key r = kv))).length ≤ 1 := by
  induction rows with
  | nil => simp
  | cons r rs ih =>
    rw [List.map_cons, List.nodup_cons] at hnd
    by_cases h : projKey key r = kv
    · have hnil : rs.filter (fun x => decide (projKey key x = kv)) = [] := by
        rw [List.filter_eq_nil_iff]
        intro x hx hpx
        rw [decide_eq_true_iff] at hpx
        exact hnd.1 (h ▸ hpx ▸ List.mem_map_of_mem (projKey key) hx)
      rw [List.filter_cons_of_pos (by simp [h]), hnil]
      simp
    · rw [List.filter_cons_of_neg (by simp [h])]
      exact ih hnd.2

/-! ## Snapshot Store lemmas -/

theorem getTable_setTable_self (s : Store) (n : String) (t : Table) :
    (s.setTable n t).getTable n = some t := by
  simp [Store.setTable, Store.getTable, List.find?_cons_of_pos]

theorem find?_name_filter_ne {l : List (String × Table)} {n m : String} (h : m ≠ n) :
    (l.filter (fun p => !(p.1 == n))).find? (fun p => p.1 == m) =
      l.find? (fun p => p.1 == m) := by
  induction l with
  | nil => rfl
  | cons a l ih =>
    by_cases ha : a.1 = n
    · have h1 : (a.1 == n) = true := by simp [ha]
      have h2 : (a.1 == m) = false := by simp [ha]; exact fun hc => h hc.symm
      rw [List.filter_cons_of_neg (by simp [h1]), List.find?_cons_of_neg _ (by simp [h2]), ih]
    · have h1 : (a.1 == n) = false := by simp [ha]
      rw [List.filter_cons_of_pos (by simp [h1])]
      by_cases hm : a.1 = m
      · have h2 : (a.1 == m) = true := by simp [hm]
        simp only [List.find?_cons, h2]
      · have h2 : (a.1 == m) = false := by simp [hm]
        rw [List.find?_cons_of_neg _ (by simp [h2]), List.find?_cons_of_neg _ (by simp [h2]),
          ih]

theorem getTable_setTable_ne (s : Store) {n m : String} (t : Table) (h : m ≠ n) :
    (s.setTable n t).getTable m = s.getTable m := by
  have h2 : (n == m) = false := by simp; exact fun hc => h hc.symm
  simp only [Store.setTable, Store.getTable]
  rw [List.find?_cons_of_neg _ (by simp [h2]), find?_name_filter_ne h]

theorem broken_setTable (s : Store) (n : String) (t : Table) :
    (s.setTable n t).broken = s.broken := rfl

/-! ## Tagged-row and generation lemmas -/

theorem map_fst_tagRows (ts : String) (rows : List Row) :
    (tagRows ts rows).map Prod.fst = rows.map (fun _ => ts) := by
  simp [tagRows]

theorem map_snd_tagRows (ts : String) (rows : List Row) :
    (tagRows ts rows).map Prod.snd = rows := by
  simp [tagRows]

theorem mem_map_fst_tagRows {x ts : String} {rows : List Row} :
    x ∈ (tagRows ts rows).map Prod.fst ↔ (x = ts ∧ rows ≠ []) := by
  rw [map_fst_tagRows]
  cases rows with
  | nil => simp
  | cons r rs => simp

theorem filter_tagRows_self (ts : String) (rows : List Row) :
    (tagRows ts rows).filter (fun p => p.1 == ts) = tagRows ts rows := by
  rw [List.filter_eq_self]
  intro p hp
  rcases List.mem_map.mp hp with ⟨r, _, rfl⟩
  simp

theorem filter_tagRows_ne {u ts : String} (h : u ≠ ts) (rows : List Row) :
    (tagRows ts rows).filter (fun p => p.1 == u) = [] := by
  rw [List.filter_eq_nil_iff]
  intro p hp
  rcases List.mem_map.mp hp with ⟨r, _, rfl⟩
  simp
  exact fun hc => h hc.symm

theorem genRows_append_self (sch : List String) (R : List (String × Row)) (ts : String)
    (rows : List Row) :
    Table.genRows ⟨sch, R ++ tagRows ts rows⟩ ts = Table.genRows ⟨sch, R⟩ ts ++ rows := by
  simp only [Table.genRows, List.filter_append, List.map_append, filter_tagRows_self,
    map_snd_tagRows]

theorem genRows_append_ne {u ts : String} (h : u ≠ ts) (sch : List String)
    (R : List (String × Row)) (rows : List Row) :
    Table.genRows ⟨sch, R ++ tagRows ts rows⟩ u = Table.genRows ⟨sch, R⟩ u := by
  simp only [Table.genRows, List.filter_append, List.map_append, filter_tagRows_ne h,
    List.map_nil, List.append_nil]

theorem genRows_eq_nil_of_fresh {ts : String} {R : List (String × Row)}
    (hfresh : ts ∉ R.map Prod.fst) (sch : List String) :
    Table.genRows ⟨sch, R⟩ ts = [] := by
  simp only [Table.genRows]
  have : R.filter (fun p => p.1 == ts) = [] := by
    rw [List.filter_eq_nil_iff]
    intro p hp
    simp
    intro hc
    exact hfresh (hc ▸ List.mem_map_of_mem Prod.fst hp)
  rw [this, List.map_nil]

theorem stamps_append_fresh {ts : String} {R : List (String × Row)}
    (hfresh : ts ∉ R.map Prod.fst) {rows : List Row} (hne : rows ≠ []) (sch : List String) :
    Table.stamps ⟨sch, R ++ tagRows ts rows⟩ ~ ts :: Table.stamps ⟨sch, R⟩ := by
  have hnd₁ : (Table.stamps ⟨sch, R ++ tagRows ts rows⟩).Nodup := List.nodup_dedup _
  have hnd₂ : (ts :: Table.stamps ⟨sch, R⟩).Nodup := by
    rw [List.nodup_cons]
    exact ⟨by simpa [Table.stamps, List.mem_dedup] using hfresh,
      List.nodup_dedup _⟩
  rw [List.perm_ext_iff_of_nodup hnd₁ hnd₂]
  intro x
  simp only [Table.stamps, List.mem_dedup, List.mem_cons, List.map_append, List.mem_append,
    mem_map_fst_tagRows]
  constructor
  · rintro (hx | ⟨rfl, -⟩)
    · exact Or.inr hx
    · exact Or.inl rfl
  · rintro (rfl | hx)
    · exact Or.inr ⟨rfl, hne⟩
    · exact Or.inl hx

theorem stamps_append_existing {ts : String} {R : List (String × Row)}
    (hmem : ts ∈ R.map Prod.fst) (rows : List Row) (sch : List String) :
    Table.stamps ⟨sch, R ++ tagRows ts rows⟩ ~ Table.stamps ⟨sch, R⟩ := by
  simp only [Table.stamps]
  rw [List.perm_ext_iff_of_nodup (List.nodup_dedup _) (List.nodup_dedup _)]
  intro x
  simp only [List.mem_dedup, List.map_append, List.mem_append, mem_map_fst_tagRows]
  constructor
  · rintro (hx | ⟨rfl, -⟩)
    · exact hx
    · exact hmem
  · exact fun hx => Or.inl hx


/-! ## Sorting lemmas -/

theorem sortStampsDesc_perm (l : List String) : sortStampsDesc l ~ l :=
  List.perm_insertionSort strDescR l

theorem sortStampsDesc_sorted (l : List String) : List.Sorted strDescR (sortStampsDesc l) :=
  List.sorted_insertionSort strDescR l

theorem sortStampsDesc_congr {l₁ l₂ : List String} (h : l₁ ~ l₂) :
    sortStampsDesc l₁ = sortStampsDesc l₂ :=
  List.eq_of_perm_of_sorted
    ((sortStampsDesc_perm l₁).trans (h.trans (sortStampsDesc_perm l₂).symm))
    (sortStampsDesc_sorted l₁) (sortStampsDesc_sorted l₂)

/-- Sorting most-recent-first puts a timestamp strictly above all stored
ones in front. -/
theorem sortStampsDesc_cons_of_max {l : List String} {ts : String}
    (hmax : ∀ u ∈ l, strLtB u ts = true) :
    sortStampsDesc (ts :: l) = ts :: sortStampsDesc l := by
  have hperm : sortStampsDesc (ts :: l) ~ ts :: sortStampsDesc l :=
    (sortStampsDesc_perm _).trans (Perm.cons ts (sortStampsDesc_perm l).symm)
  have hsorted : List.Sorted strDescR (ts :: sortStampsDesc l) := by
    rw [List.sorted_cons]
    exact ⟨fun u hu => strLtB_asymm (hmax u ((sortStampsDesc_perm l).mem_iff.mp hu)),
      sortStampsDesc_sorted l⟩
  exact List.eq_of_perm_of_sorted hperm (sortStampsDesc_sorted _) hsorted

theorem sortKeysAsc_perm (l : List (List Value)) : sortKeysAsc l ~ l :=
  List.perm_insertionSort keyAscR l

theorem sortKeysAsc_sorted (l : List (List Value)) : List.Sorted keyAscR (sortKeysAsc l) :=
  List.sorted_insertionSort keyAscR l

theorem sortKeysAsc_congr {l₁ l₂ : List (List Value)} (h : l₁ ~ l₂) :
    sortKeysAsc l₁ = sortKeysAsc l₂ :=
  List.eq_of_perm_of_sorted
    ((sortKeysAsc_perm l₁).trans (h.trans (sortKeysAsc_perm l₂).symm))
    (sortKeysAsc_sorted l₁) (sortKeysAsc_sorted l₂)

theorem sortColsAsc_perm (l : List String) : sortColsAsc l ~ l :=
  List.perm_insertionSort strAscR l

theorem sortColsAsc_sorted (l : List String) : List.Sorted strAscR (sortColsAsc l) :=
  List.sorted_insertionSort strAscR l

/-- A sorted list without duplicates is strictly sorted. -/
theorem pairwise_ltB_of_sorted_nodup {α : Type _} {lt : α → α → Bool}
    (connex : ∀ {x y : α}, lt x y = false → lt y x = false → x = y)
    {l : List α} (hs : List.Pairwise (fun a b => lt b a = false) l) (hnd : l.Nodup) :
    List.Pairwise (fun a b => lt a b = true) l := by
  refine (hs.and hnd).imp ?_
  rintro a b ⟨hab, hne⟩
  cases h : lt a b with
  | true => rfl
  | false => exact absurd (connex h hab) hne

/-! ## Orchestrator lemmas -/

theorem run_nil (reg : List CollectorDef) (ts : String) (s : Store) :
    run reg [] ts s = ([], s) := rfl

theorem run_cons (reg : List CollectorDef) (row : PlanRow) (rest : List PlanRow)
    (ts : String) (s : Store) :
    run reg (row :: rest) ts s =
      ((stepRow reg ts s row).1 :: (run reg rest ts (stepRow reg ts s row).2).1,
        (run reg rest ts (stepRow reg ts s row).2).2) := rfl

theorem run_length (reg : List CollectorDef) (plan : List PlanRow) (ts : String) (s : Store) :
    (run reg plan ts s).1.length = plan.length := by
  induction plan generalizing s with
  | nil => rfl
  | cons row rest ih => rw [run_cons, List.length_cons, List.length_cons, ih]

theorem run_append (reg : List CollectorDef) (xs ys : List PlanRow) (ts : String) (s : Store) :
    run reg (xs ++ ys) ts s =
      ((run reg xs ts s).1 ++ (run reg ys ts (run reg xs ts s).2).1,
        (run reg ys ts (run reg xs ts s).2).2) := by
  induction xs generalizing s with
  | nil => rfl
  | cons row rest ih => simp only [List.cons_append, run_cons, ih, List.append_eq]



/-! ## Diff Engine lemmas -/

theorem findByKey_eq_some {key : List String} {rows : List Row} {kv : List Value} {r : Row}
    (h : findByKey key rows kv = some r) : r ∈ rows ∧ projKey key r = kv :=
  ⟨List.mem_of_find?_eq_some h, by
    have := List.find?_some h
    rwa [decide_eq_true_iff] at this⟩

theorem findByKey_isSome_iff {key : List String} {rows : List Row} {kv : List Value} :
    (findByKey key rows kv).isSome ↔ kv ∈ rows.map (projKey key) := by
  constructor
  · intro h
    rcases Option.isSome_iff_exists.mp h with ⟨r, hr⟩
    rcases findByKey_eq_some hr with ⟨hmem, hproj⟩
    exact hproj ▸ List.mem_map_of_mem (projKey key) hmem
  · intro h
    rcases List.mem_map.mp h with ⟨r, hr, hproj⟩
    cases hf : findByKey key rows kv with
    | some r₂ => rfl
    | none =>
      have := List.find?_eq_none.mp hf r hr
      rw [decide_eq_true_iff] at this
      exact absurd hproj this

/-- With duplicate-free key projections, row alignment does not depend on
row order. -/
theorem findByKey_perm {key : List String} {rows₁ rows₂ : List Row} (hp : rows₁ ~ rows₂)
    (hnd : (rows₁.map (projKey key)).Nodup) (kv : List Value) :
    findByKey key rows₁ kv = findByKey key rows₂ kv :=
  find?_perm_of_subsingleton hp _ (filter_key_length_le_one hnd kv)

theorem allKeys_congr {key : List String} {n₁ n₂ o₁ o₂ : List Row}
    (hn : n₁ ~ n₂) (ho : o₁ ~ o₂) :
    allKeys key n₁ o₁ = allKeys key n₂ o₂ :=
  sortKeysAsc_congr (((hn.map (projKey key)).append (ho.map (projKey key))).dedup)

theorem allKeys_nodup (key : List String) (newer older : List Row) :
    (allKeys key newer older).Nodup :=
  (List.nodup_dedup _).perm (sortKeysAsc_perm _).symm

theorem mem_allKeys {key : List String} {newer older : List Row} {kv : List Value} :
    kv ∈ allKeys key newer older ↔
      kv ∈ newer.map (projKey key) ∨ kv ∈ older.map (projKey key) := by
  unfold allKeys
  rw [(sortKeysAsc_perm _).mem_iff, List.mem_dedup, List.mem_append]

theorem allKeys_strict (key : List String) (newer older : List Row) :
    List.Pairwise (fun a b => keyLtB a b = true) (allKeys key newer older) :=
  pairwise_ltB_of_sorted_nodup (fun h₁ h₂ => keyLtB_connex h₁ h₂)
    (sortKeysAsc_sorted _) (allKeys_nodup key newer older)

theorem nonKeyCols_nodup (schema key : List String) : (nonKeyCols schema key).Nodup :=
  (List.nodup_dedup _).perm (sortColsAsc_perm _).symm

theorem nonKeyCols_strict (schema key : List String) :
    List.Pairwise (fun a b => strLtB a b = true) (nonKeyCols schema key) :=
  pairwise_ltB_of_sorted_nodup (fun h₁ h₂ => strLtB_connex h₁ h₂)
    (sortColsAsc_sorted _) (nonKeyCols_nodup schema key)

theorem mem_nonKeyCols {schema key : List String} {c : String} :
    c ∈ nonKeyCols schema key ↔ (c ∈ schema ∧ c ∉ key) := by
  unfold nonKeyCols
  rw [(sortColsAsc_perm _).mem_iff, List.mem_dedup, List.mem_filter]
  simp

/-- Every Diff Record carries the key projection of the block that emitted
it. -/
theorem recordsForKey_key {nk key : List String} {newer older : List Row} {kv : List Value}
    {r : DiffRecord} (h : r ∈ recordsForKey nk key newer older kv) : r.key = kv := by
  unfold recordsForKey at h
  rcases hn : findByKey key newer kv with - | rn <;> rcases ho : findByKey key older kv with - | ro <;>
    rw [hn, ho] at h <;> simp at h
  all_goals rcases h with ⟨c, -, rfl⟩
  all_goals rfl

theorem recordsForKey_pairwise {nk : List String}
    (hnk : List.Pairwise (fun a b => strLtB a b = true) nk)
    (key : List String) (newer older : List Row) (kv : List Value) :
    List.Pairwise recBefore (recordsForKey nk key newer older kv) := by
  unfold recordsForKey
  rcases findByKey key newer kv with - | rn <;> rcases findByKey key older kv with - | ro
  · exact List.Pairwise.nil
  · rw [List.pairwise_map]
    exact hnk.imp (fun h => Or.inr ⟨rfl, h⟩)
  · rw [List.pairwise_map]
    exact hnk.imp (fun h => Or.inr ⟨rfl, h⟩)
  · rw [List.pairwise_map]
    exact (hnk.filter _).imp (fun h => Or.inr ⟨rfl, h⟩)

/-- The diff output is sorted by (resource key projection, field name)
(spec §4.4 step 6). -/
theorem diffRecords_pairwise (schema key : List String) (newer older : List Row) :
    List.Pairwise recBefore (diffRecords schema key newer older) := by
  unfold diffRecords
  rw [List.pairwise_flatMap]
  refine ⟨fun kv _ => recordsForKey_pairwise (nonKeyCols_strict schema key) key newer older kv, ?_⟩
  refine (allKeys_strict key newer older).imp ?_
  intro kv₁ kv₂ hlt x hx y hy
  exact Or.inl ((recordsForKey_key hx).symm ▸ (recordsForKey_key hy).symm ▸ hlt)

/-- With duplicate-free key projections on both sides, the diff output does
not depend on row order within either generation (spec §4.4 step 5). -/
theorem diffRecords_congr {key : List String} {n₁ n₂ o₁ o₂ : List Row}
    (hn : n₁ ~ n₂) (ho : o₁ ~ o₂)
    (hndn : (n₁.map (projKey key)).Nodup) (hndo : (o₁.map (projKey key)).Nodup)
    (schema : List String) :
    diffRecords schema key n₁ o₁ = diffRecords schema key n₂ o₂ := by
  unfold diffRecords
  rw [allKeys_congr hn ho, List.flatMap_def, List.flatMap_def]
  congr 1
  apply List.map_congr_left
  intro kv _
  unfold recordsForKey
  rw [findByKey_perm hn hndn kv, findByKey_perm ho hndo kv]

/-- Restricting a flatMap over pairwise-distinct keys to one key recovers
that key's block. -/
theorem flatMap_filter_key {ks : List (List Value)} {B : List Value → List DiffRecord}
    (hnd : ks.Nodup) (hkey : ∀ kv ∈ ks, ∀ r ∈ B kv, r.key = kv) {kv : List Value}
    (hmem : kv ∈ ks) :
    (ks.flatMap B).filter (fun r => r.key == kv) = B kv := by
  induction ks with
  | nil => cases hmem
  | cons k rest ih =>
    rw [List.nodup_cons] at hnd
    rw [List.flatMap_cons, List.filter_append]
    rcases List.mem_cons.mp hmem with rfl | hmem₂
    · have h₁ : (B kv).filter (fun r => r.key == kv) = B kv := by
        rw [List.filter_eq_self]
        intro r hr
        simp [hkey kv (List.mem_cons_self kv rest) r hr]
      have h₂ : (rest.flatMap B).filter (fun r => r.key == kv) = [] := by
        rw [List.filter_eq_nil_iff]
        intro r hr
        rcases List.mem_flatMap.mp hr with ⟨k₂, hk₂, hrk₂⟩
        rw [hkey k₂ (List.mem_cons_of_mem kv hk₂) r hrk₂]
        simp
        exact fun hc => hnd.1 (hc ▸ hk₂)
      rw [h₁, h₂, List.append_nil]
    · have hkne : k ≠ kv := fun hc => hnd.1 (hc ▸ hmem₂)
      have h₁ : (B k).filter (fun r => r.key == kv) = [] := by
        rw [List.filter_eq_nil_iff]
        intro r hr
        rw [hkey k (List.mem_cons_self k rest) r hr]
        simp
        exact hkne
      rw [h₁, List.nil_append]
      exact ih hnd.2 (fun kv₂ h₂ => hkey kv₂ (List.mem_cons_of_mem k h₂)) hmem₂




/-! ## Schema widening lemmas -/

theorem addCols_cons (a : List String) (c : String) (cs : List String) :
    addCols a (c :: cs) = addCols (if a.contains c then a else a ++ [c]) cs := rfl

/-- Widening only ever appends columns: the stored schema is preserved as a
prefix (spec §4.2: existing columns are kept, new ones added). -/
theorem addCols_extends (cs : List String) :
    ∀ a : List String, ∃ ext, addCols a cs = a ++ ext := by
  induction cs with
  | nil => exact fun a => ⟨[], by simp [addCols]⟩
  | cons c cs ih =>
    intro a
    rw [addCols_cons]
    by_cases h : a.contains c
    · rw [if_pos h]; exact ih a
    · rcases ih (a ++ [c]) with ⟨ext, hext⟩
      refine ⟨c :: ext, ?_⟩
      rw [if_neg h, hext, List.append_assoc]
      rfl

theorem mem_addCols {c : String} (cs : List String) :
    ∀ a : List String, c ∈ addCols a cs ↔ (c ∈ a ∨ c ∈ cs) := by
  induction cs with
  | nil => simp [addCols]
  | cons c₀ cs ih =>
    intro a
    rw [addCols_cons]
    by_cases h : a.contains c₀
    · rw [if_pos h, ih a, List.mem_cons]
      rw [List.contains_iff_exists_mem_beq] at h
      rcases h with ⟨c₁, hc₁, hbeq⟩
      rw [beq_iff_eq] at hbeq
      subst hbeq
      constructor
      · rintro (hc | hc)
        · exact Or.inl hc
        · exact Or.inr (Or.inr hc)
      · rintro (hc | rfl | hc)
        · exact Or.inl hc
        · exact Or.inl hc₁
        · exact Or.inr hc
    · rw [if_neg h, ih (a ++ [c₀]), List.mem_append, List.mem_singleton, List.mem_cons]
      tauto

theorem widen_cons (sch : List String) (r : Row) (rows : List Row) :
    widen sch (r :: rows) = widen (addCols sch (rowCols r)) rows := rfl

theorem widen_extends (rows : List Row) :
    ∀ sch : List String, ∃ ext, widen sch rows = sch ++ ext := by
  induction rows with
  | nil => exact fun sch => ⟨[], by simp [widen]⟩
  | cons r rows ih =>
    intro sch
    rw [widen_cons]
    rcases addCols_extends (rowCols r) sch with ⟨ext₁, hext₁⟩
    rcases ih (addCols sch (rowCols r)) with ⟨ext₂, hext₂⟩
    exact ⟨ext₁ ++ ext₂, by rw [hext₂, hext₁, List.append_assoc]⟩

theorem mem_widen {c : String} (rows : List Row) :
    ∀ sch : List String, c ∈ widen sch rows ↔ (c ∈ sch ∨ ∃ r ∈ rows, c ∈ rowCols r) := by
  induction rows with
  | nil => simp [widen]
  | cons r rows ih =>
    intro sch
    rw [widen_cons, ih (addCols sch (rowCols r)), mem_addCols]
    simp only [List.mem_cons]
    constructor
    · rintro ((hc | hc) | ⟨r₂, hr₂, hc⟩)
      · exact Or.inl hc
      · exact Or.inr ⟨r, Or.inl rfl, hc⟩
      · exact Or.inr ⟨r₂, Or.inr hr₂, hc⟩
    · rintro (hc | ⟨r₂, (rfl | hr₂), hc⟩)
      · exact Or.inl (Or.inl hc)
      · exact Or.inl (Or.inr hc)
      · exact Or.inr ⟨r₂, hr₂, hc⟩

/-- A column missing from a row record reads back as absent/null. -/
theorem getCol_eq_null_of_not_mem {r : Row} {c : String} (h : c ∉ rowCols r) :
    getCol r c = .null := by
  unfold getCol
  have hnone : r.find? (fun p => p.1 == c) = none := by
    rw [List.find?_eq_none]
    intro p hp
    simp only [beq_iff_eq]
    exact fun hc => h (hc ▸ List.mem_map_of_mem Prod.fst hp)
  rw [hnone]


/-! ## Evaluating `diff` under hypotheses -/

theorem genRows_perm {t₁ t₂ : Table} (h : t₁.rows ~ t₂.rows) (u : String) :
    t₁.genRows u ~ t₂.genRows u :=
  (h.filter _).map _

theorem stamps_perm {t₁ t₂ : Table} (h : t₁.rows ~ t₂.rows) : t₁.stamps ~ t₂.stamps :=
  (h.map _).dedup

theorem hasDupKey_iff_of_perm {key : List String} {r₁ r₂ : List Row} (h : r₁ ~ r₂) :
    (hasDupKey key r₁ ↔ hasDupKey key r₂) :=
  not_congr (h.map _).nodup_iff

theorem diff_eval {s : Store} {name : String} {t : Table} {tN tO : String}
    (hget : s.getTable name = some t)
    (htake : (sortStampsDesc t.stamps).take 2 = [tN, tO]) (key : List String) :
    s.diff name key =
      if hasDupKey key (t.genRows tN) ∨ hasDupKey key (t.genRows tO) then
        .error .duplicateResourceKey
      else .ok (diffRecords t.schema key (t.genRows tN) (t.genRows tO)) := by
  simp only [Store.diff, hget, htake, List.map_cons, List.map_nil, diffGens]

theorem diff_ok_pairwise {s : Store} {name : String} {key : List String} {l : List DiffRecord}
    (h : s.diff name key = .ok l) : l.Pairwise recBefore := by
  simp only [Store.diff] at h
  cases hget : s.getTable name with
  | none => rw [hget] at h; simp at h
  | some t =>
    rw [hget] at h
    simp only [] at h
    cases htake : (sortStampsDesc t.stamps).take 2 with
    | nil =>
      rw [htake] at h
      simp only [List.map_nil, diffGens, Except.ok.injEq] at h
      rw [← h]
      exact List.Pairwise.nil
    | cons tN rest =>
      cases rest with
      | nil =>
        rw [htake] at h
        simp only [List.map_cons, List.map_nil, diffGens, Except.ok.injEq] at h
        rw [← h]
        exact List.Pairwise.nil
      | cons tO rest₂ =>
        rw [htake] at h
        simp only [List.map_cons, diffGens] at h
        by_cases hdup : hasDupKey key (t.genRows tN) ∨ hasDupKey key (t.genRows tO)
        · rw [if_pos hdup] at h; simp at h
        · rw [if_neg hdup] at h
          simp only [Except.ok.injEq] at h
          rw [← h]
          exact diffRecords_pairwise t.schema key (t.genRows tN) (t.genRows tO)


/-! ## Claim theorems -/

/-- C9: For every table that exists but holds fewer than two generations
(fewer than two distinct stored timestamps), and every resource key,
`diff(tableName, resourceKey)` returns an empty sequence of Diff Records and
does not fail. -/
theorem c9_diff_short_history_empty (s : Store) (name : String) (t : Table)
    (key : List String) (hget : s.getTable name = some t) (hlen : t.stamps.length ≤ 1) :
    s.diff name key = .ok [] := by
  simp only [Store.diff, hget]
  have hlen' : (sortStampsDesc t.stamps).length ≤ 1 := by
    rw [(sortStampsDesc_perm t.stamps).length_eq]
    exact hlen
  cases hsort : sortStampsDesc t.stamps with
  | nil => rfl
  | cons u rest =>
    cases rest with
    | nil => rfl
    | cons v rest₂ =>
      rw [hsort] at hlen'
      simp at hlen'

/-- Witness for C9: one generation of `pool_members` diffs to the empty
sequence. -/
theorem c9_witness : poolStore1.diff "pool_members" ["pool", "member"] = .ok [] :=
  c9_diff_short_history_empty poolStore1 "pool_members" poolTable1 ["pool", "member"]
    rfl (by decide)

/-- C4: For every table with at least two generations, `diff` fails with
`DuplicateResourceKey` if and only if at least one of the two newest
generations contains two rows with the same projection onto the resource
key; in that case it returns no diff records at all. -/
theorem c4_duplicate_key_iff (s : Store) (name : String) (t : Table) (tN tO : String)
    (key : List String) (hget : s.getTable name = some t)
    (htake : (sortStampsDesc t.stamps).take 2 = [tN, tO]) :
    (s.diff name key = .error .duplicateResourceKey ↔
      (hasDupKey key (t.genRows tN) ∨ hasDupKey key (t.genRows tO))) ∧
    ((hasDupKey key (t.genRows tN) ∨ hasDupKey key (t.genRows tO)) →
      ∀ l, s.diff name key ≠ .ok l) := by
  rw [diff_eval hget htake key]
  constructor
  · by_cases hdup : hasDupKey key (t.genRows tN) ∨ hasDupKey key (t.genRows tO)
    · rw [if_pos hdup]
      simp [hdup]
    · rw [if_neg hdup]
      simp [hdup]
  · intro hdup l
    rw [if_pos hdup]
    simp

/-- Witness for C4 (spec Scenario 3): a generation with two rows of
identical key projection makes `diff` fail with `DuplicateResourceKey`. -/
theorem c4_witness : dupStore.diff "t" ["id"] = .error .duplicateResourceKey :=
  (c4_duplicate_key_iff dupStore "t" dupTable "T2" "T1" ["id"] rfl (by decide)).1.mpr
    (Or.inl (by decide))


/-- C2: `diff` is deterministic: its result is unchanged under any
permutation of the stored rows of the table (in particular under any
permutation of the rows within either generation), it is returned sorted by
(resource key projection, field name), and — `diff` being a pure function of
the stored generations — calling it twice on unchanged generations returns
the identical, identically ordered sequence. -/
theorem c2_diff_deterministic (s₁ s₂ : Store) (name : String) (key : List String)
    (t₁ t₂ : Table) (hget₁ : s₁.getTable name = some t₁) (hget₂ : s₂.getTable name = some t₂)
    (hschema : t₁.schema = t₂.schema) (hrows : t₁.rows ~ t₂.rows) :
    s₁.diff name key = s₂.diff name key ∧
    (∀ l, s₁.diff name key = .ok l → l.Pairwise recBefore) ∧
    s₁.diff name key = s₁.diff name key := by
  refine ⟨?_, fun l h => diff_ok_pairwise h, rfl⟩
  simp only [Store.diff, hget₁, hget₂]
  have hstamps : sortStampsDesc t₂.stamps = sortStampsDesc t₁.stamps :=
    sortStampsDesc_congr (stamps_perm hrows.symm)
  rw [hstamps, ← hschema]
  cases htake : (sortStampsDesc t₁.stamps).take 2 with
  | nil => rfl
  | cons tN rest =>
    cases rest with
    | nil => rfl
    | cons tO rest₂ =>
      simp only [List.map_cons, diffGens]
      have hN : t₁.genRows tN ~ t₂.genRows tN := genRows_perm hrows tN
      have hO : t₁.genRows tO ~ t₂.genRows tO := genRows_perm hrows tO
      by_cases hdup : hasDupKey key (t₁.genRows tN) ∨ hasDupKey key (t₁.genRows tO)
      · rw [if_pos hdup, if_pos]
        rcases hdup with h | h
        · exact Or.inl ((hasDupKey_iff_of_perm hN).mp h)
        · exact Or.inr ((hasDupKey_iff_of_perm hO).mp h)
      · rw [if_neg hdup, if_neg]
        · have hndn : ((t₁.genRows tN).map (projKey key)).Nodup :=
            not_not.mp (fun hc => hdup (Or.inl hc))
          have hndo : ((t₁.genRows tO).map (projKey key)).Nodup :=
            not_not.mp (fun hc => hdup (Or.inr hc))
          exact congrArg Except.ok (diffRecords_congr hN hO hndn hndo t₁.schema)
        · intro hc
          apply hdup
          rcases hc with h | h
          · exact Or.inl ((hasDupKey_iff_of_perm hN).mpr h)
          · exact Or.inr ((hasDupKey_iff_of_perm hO).mpr h)

/-- Witness for C2: physically permuting the stored `pool_members` rows
leaves the diff unchanged. -/
theorem c2_witness : poolStore2.diff "pool_members" ["pool", "member"] =
    poolStorePerm.diff "pool_members" ["pool", "member"] :=
  (c2_diff_deterministic poolStore2 poolStorePerm "pool_members" ["pool", "member"]
    poolTable2
    ⟨["pool", "member", "status"],
      [("2024-01-01_0905", poolRowDown), ("2024-01-01_0900", poolRowUp)]⟩
    rfl rfl rfl (by decide)).1


/-- C5: For every resource key value present in both of the two newest
generations (aligned via duplicate-free key projections), the diff records
for that key are exactly one `changed` record for each monitored non-key
column whose values differ under exact equality after identical null
normalization (`getCol` reads a missing column as null on both sides), with
previous = older value and current = newer value — and no record for columns
whose values are equal. -/
theorem c5_changed_records (s : Store) (name : String) (t : Table) (tN tO : String)
    (key : List String) (kv : List Value) (rn ro : Row)
    (hget : s.getTable name = some t)
    (htake : (sortStampsDesc t.stamps).take 2 = [tN, tO])
    (hndN : ¬ hasDupKey key (t.genRows tN)) (hndO : ¬ hasDupKey key (t.genRows tO))
    (hrn : findByKey key (t.genRows tN) kv = some rn)
    (hro : findByKey key (t.genRows tO) kv = some ro) :
    ∃ l, s.diff name key = .ok l ∧
      l.filter (fun r => r.key == kv) =
        ((nonKeyCols t.schema key).filter (fun c => decide (getCol rn c ≠ getCol ro c))).map
          (fun c => ⟨kv, c, getCol ro c, getCol rn c, .changed⟩) := by
  refine ⟨diffRecords t.schema key (t.genRows tN) (t.genRows tO), ?_, ?_⟩
  · rw [diff_eval hget htake key, if_neg (not_or.mpr ⟨hndN, hndO⟩)]
  · unfold diffRecords
    have hmem : kv ∈ allKeys key (t.genRows tN) (t.genRows tO) :=
      mem_allKeys.mpr (Or.inl (findByKey_isSome_iff.mp (by rw [hrn]; rfl)))
    rw [flatMap_filter_key (allKeys_nodup key _ _) (fun kv₂ _ r hr => recordsForKey_key hr)
      hmem]
    unfold recordsForKey
    rw [hrn, hro]

/-- Witness for C5 (spec Scenario 1): the `pool_members` status flip from
"up" to "down" yields exactly the one `changed` record for column
`status`. -/
theorem c5_witness : ∃ l,
    poolStore2.diff "pool_members" ["pool", "member"] = .ok l ∧
    l.filter (fun r => r.key == [Value.str "P1", Value.str "10.0.0.1"]) =
      ((nonKeyCols poolTable2.schema ["pool", "member"]).filter
        (fun c => decide (getCol poolRowDown c ≠ getCol poolRowUp c))).map
        (fun c => ⟨[Value.str "P1", Value.str "10.0.0.1"], c, getCol poolRowUp c,
          getCol poolRowDown c, .changed⟩) :=
  c5_changed_records poolStore2 "pool_members" poolTable2 "2024-01-01_0905" "2024-01-01_0900"
    ["pool", "member"] [Value.str "P1", Value.str "10.0.0.1"] poolRowDown poolRowUp
    rfl (by decide) (by decide) (by decide) rfl rfl


theorem genRows_mk (sch : List String) (t : Table) (u : String) :
    Table.genRows ⟨sch, t.rows⟩ u = t.genRows u := rfl

theorem stamps_mk (sch : List String) (t : Table) :
    Table.stamps ⟨sch, t.rows⟩ = t.stamps := rfl

theorem stamps_tagRows {ts : String} {rows : List Row} (hne : rows ≠ []) (sch : List String) :
    Table.stamps ⟨sch, tagRows ts rows⟩ = [ts] := by
  have hperm : Table.stamps ⟨sch, tagRows ts rows⟩ ~ [ts] := by
    simp only [Table.stamps]
    rw [List.perm_ext_iff_of_nodup (List.nodup_dedup _) (List.nodup_singleton ts)]
    intro x
    rw [List.mem_dedup, mem_map_fst_tagRows]
    simp [hne]
  exact List.perm_singleton.mp hperm

/-- A table holding exactly one freshly written generation reads back as
that one generation, for any requested count. -/
theorem readLatest_singleGen (s₂ : Store) (name : String) (sch : List String) {ts : String}
    {rows : List Row} (hne : rows ≠ []) (n : Nat) :
    (s₂.setTable name ⟨sch, tagRows ts rows⟩).readLatestGenerations name (n + 1) =
      .ok [(ts, rows)] := by
  simp only [Store.readLatestGenerations, getTable_setTable_self]
  rw [stamps_tagRows hne]
  rw [show sortStampsDesc [ts] = [ts] from rfl, List.take_succ_cons, List.take_nil,
    List.map_cons, List.map_nil]
  have hgen : Table.genRows ⟨sch, tagRows ts rows⟩ ts = rows := by
    simp only [Table.genRows, filter_tagRows_self, map_snd_tagRows]
  rw [hgen]

/-- C6: For every successful append `write` of a non-empty row set with a
fresh, strictly larger timestamp, `readLatestGenerations(tableName, 1)`
immediately after returns exactly the rows just written and no others — the
new table stores each of them tagged with the given timestamp in the
injected timestamp column — and in general
`readLatestGenerations(tableName, n+1)` returns the rows of the `n+1` most
recent distinct timestamps, most-recent first: the new generation followed
by exactly the generations the prior store returned. -/
theorem c6_write_read_roundtrip (s : Store) (name : String) (rows : List Row) (ts : String)
    (t : Table)
    (hok : s.broken.contains name = false)
    (hget : s.getTable name = some t)
    (hfresh : ∀ u ∈ t.stamps, strLtB u ts = true)
    (hne : rows ≠ []) :
    ∃ t', s.write name rows ts .append = (none, s.setTable name t') ∧
      t'.rows = t.rows ++ tagRows ts rows ∧
      (s.setTable name t').readLatestGenerations name 1 = .ok [(ts, rows)] ∧
      (∀ n, (s.setTable name t').readLatestGenerations name (n + 1) =
          .ok ((ts, rows) ::
            ((sortStampsDesc t.stamps).take n).map (fun u => (u, t.genRows u))) ∧
        s.readLatestGenerations name n =
          .ok (((sortStampsDesc t.stamps).take n).map (fun u => (u, t.genRows u)))) ∧
      (∀ s₂ : Store, s₂.broken.contains name = false →
        (∀ n, ((s₂.write name rows ts .replace).1 = none ∧
          ((s₂.write name rows ts .replace).2).readLatestGenerations name (n + 1) =
            .ok [(ts, rows)])) ∧
        (s₂.getTable name = none →
          ∀ n, ((s₂.write name rows ts .append).1 = none ∧
            ((s₂.write name rows ts .append).2).readLatestGenerations name (n + 1) =
              .ok [(ts, rows)]) ∧
            ((s₂.write name rows ts .failIfExists).1 = none ∧
            ((s₂.write name rows ts .failIfExists).2).readLatestGenerations name (n + 1) =
              .ok [(ts, rows)]))) := by
  have hnotmem : ts ∉ t.rows.map Prod.fst := by
    intro hc
    have hmem : ts ∈ t.stamps := List.mem_dedup.mpr hc
    have := hfresh ts hmem
    rw [strLtB_irrefl ts] at this
    cases this
  have hne2 : ∀ u ∈ t.stamps, u ≠ ts := by
    intro u hu hc
    have := hfresh u hu
    rw [hc, strLtB_irrefl ts] at this
    cases this
  have hstamps :
      sortStampsDesc (Table.stamps ⟨widen t.schema rows, t.rows ++ tagRows ts rows⟩) =
        ts :: sortStampsDesc t.stamps := by
    have h1 := stamps_append_fresh (R := t.rows) hnotmem hne (widen t.schema rows)
    rw [stamps_mk] at h1
    rw [sortStampsDesc_congr h1, sortStampsDesc_cons_of_max hfresh]
  have hgen : ∀ n,
      (s.setTable name ⟨widen t.schema rows, t.rows ++ tagRows ts rows⟩).readLatestGenerations
          name (n + 1) =
        .ok ((ts, rows) ::
          ((sortStampsDesc t.stamps).take n).map (fun u => (u, t.genRows u))) := by
    intro n
    simp only [Store.readLatestGenerations, getTable_setTable_self]
    rw [hstamps, List.take_succ_cons, List.map_cons]
    have hts : Table.genRows ⟨widen t.schema rows, t.rows ++ tagRows ts rows⟩ ts = rows := by
      rw [genRows_append_self, genRows_mk, genRows_eq_nil_of_fresh hnotmem, List.nil_append]
    rw [hts]
    have hmap : ((sortStampsDesc t.stamps).take n).map
          (fun u => (u, Table.genRows ⟨widen t.schema rows, t.rows ++ tagRows ts rows⟩ u)) =
        ((sortStampsDesc t.stamps).take n).map (fun u => (u, t.genRows u)) := by
      apply List.map_congr_left
      intro u hu
      have humem : u ∈ t.stamps :=
        (sortStampsDesc_perm t.stamps).mem_iff.mp (List.take_subset n _ hu)
      rw [genRows_append_ne (hne2 u humem), genRows_mk]
    rw [hmap]
  have hother : ∀ s₂ : Store, s₂.broken.contains name = false →
      (∀ n, ((s₂.write name rows ts .replace).1 = none ∧
        ((s₂.write name rows ts .replace).2).readLatestGenerations name (n + 1) =
          .ok [(ts, rows)])) ∧
      (s₂.getTable name = none →
        ∀ n, ((s₂.write name rows ts .append).1 = none ∧
          ((s₂.write name rows ts .append).2).readLatestGenerations name (n + 1) =
            .ok [(ts, rows)]) ∧
          ((s₂.write name rows ts .failIfExists).1 = none ∧
          ((s₂.write name rows ts .failIfExists).2).readLatestGenerations name (n + 1) =
            .ok [(ts, rows)])) := by
    intro s₂ hok₂
    have hnotin₂ : name ∉ s₂.broken := by
      intro hc
      have hcontains : s₂.broken.contains name = true := List.elem_iff.mpr hc
      rw [hok₂] at hcontains
      cases hcontains
    have hrepl : s₂.write name rows ts .replace =
        (none, s₂.setTable name ⟨widen [] rows, tagRows ts rows⟩) := by
      simp [Store.write, hnotin₂]
    constructor
    · intro n
      rw [hrepl]
      exact ⟨rfl, readLatest_singleGen s₂ name (widen [] rows) hne n⟩
    · intro hnone n
      have happ : s₂.write name rows ts .append =
          (none, s₂.setTable name ⟨widen [] rows, tagRows ts rows⟩) := by
        simp [Store.write, hnotin₂, hnone]
      have hfie : s₂.write name rows ts .failIfExists =
          (none, s₂.setTable name ⟨widen [] rows, tagRows ts rows⟩) := by
        simp [Store.write, hnotin₂, hnone]
      rw [happ, hfie]
      exact ⟨⟨rfl, readLatest_singleGen s₂ name (widen [] rows) hne n⟩,
        rfl, readLatest_singleGen s₂ name (widen [] rows) hne n⟩
  refine ⟨⟨widen t.schema rows, t.rows ++ tagRows ts rows⟩, ?_, rfl, ?_,
    fun n => ⟨hgen n, ?_⟩, hother⟩
  · have hnotin : name ∉ s.broken := by
      intro hc
      have hcontains : s.broken.contains name = true := List.elem_iff.mpr hc
      rw [hok] at hcontains
      cases hcontains
    simp [Store.write, hok, hget, hnotin]
  · have h0 := hgen 0
    rw [List.take_zero, List.map_nil] at h0
    exact h0
  · simp only [Store.readLatestGenerations, hget]

/-- Witness for C6: writing the second `pool_members` generation and reading
the single latest generation back. -/
theorem c6_witness : ∃ t',
    poolStore1.write "pool_members" [poolRowDown] "2024-01-01_0905" .append =
      (none, poolStore1.setTable "pool_members" t') ∧
    t'.rows = poolTable1.rows ++ tagRows "2024-01-01_0905" [poolRowDown] ∧
    (poolStore1.setTable "pool_members" t').readLatestGenerations "pool_members" 1 =
      .ok [("2024-01-01_0905", [poolRowDown])] ∧
    ∀ n, (poolStore1.setTable "pool_members" t').readLatestGenerations "pool_members" (n + 1) =
        .ok (("2024-01-01_0905", [poolRowDown]) ::
          ((sortStampsDesc poolTable1.stamps).take n).map
            (fun u => (u, poolTable1.genRows u))) ∧
      poolStore1.readLatestGenerations "pool_members" n =
        .ok (((sortStampsDesc poolTable1.stamps).take n).map
          (fun u => (u, poolTable1.genRows u))) := by
  rcases c6_write_read_roundtrip poolStore1 "pool_members" [poolRowDown] "2024-01-01_0905"
      poolTable1 rfl rfl (by decide) (by decide) with ⟨t', h1, h2, h3, h4, -⟩
  exact ⟨t', h1, h2, h3, h4⟩


/-- C7: For an existing table, an append-mode `write` whose column set
differs from the stored schema succeeds and widens the schema instead of
failing: the old schema is kept as a prefix, the new column `d` is added,
earlier generations' stored rows are untouched, and reading `d` from any
stored row that lacks it yields absent/null. -/
theorem c7_schema_widening (s : Store) (name : String) (t : Table) (rows : List Row)
    (ts : String) (d : String)
    (hok : s.broken.contains name = false)
    (hget : s.getTable name = some t)
    (hd : ∃ r ∈ rows, d ∈ rowCols r) :
    ∃ t', s.write name rows ts .append = (none, s.setTable name t') ∧
      t'.schema = widen t.schema rows ∧
      (∃ ext, t'.schema = t.schema ++ ext) ∧
      d ∈ t'.schema ∧
      (∀ u, u ≠ ts → t'.genRows u = t.genRows u) ∧
      (∀ p ∈ t.rows, d ∉ rowCols p.2 → getCol p.2 d = .null) := by
  have hnotin : name ∉ s.broken := by
    intro hc
    have hcontains : s.broken.contains name = true := List.elem_iff.mpr hc
    rw [hok] at hcontains
    cases hcontains
  refine ⟨⟨widen t.schema rows, t.rows ++ tagRows ts rows⟩, ?_, rfl,
    widen_extends rows t.schema, ?_, ?_, ?_⟩
  · simp [Store.write, hok, hget, hnotin]
  · exact (mem_widen rows t.schema).mpr (Or.inr hd)
  · intro u hu
    rw [genRows_append_ne hu, genRows_mk]
  · intro p _ hnot
    exact getCol_eq_null_of_not_mem hnot

/-- Witness for C7: appending a generation whose rows add column `v` to
table `t` (prior schema `id` only). -/
theorem c7_witness : ∃ t',
    idStore1.write "t" [idRowA, idRowBv] "T2" .append = (none, idStore1.setTable "t" t') ∧
    t'.schema = widen idTable1.schema [idRowA, idRowBv] ∧
    (∃ ext, t'.schema = idTable1.schema ++ ext) ∧
    "v" ∈ t'.schema ∧
    (∀ u, u ≠ "T2" → t'.genRows u = idTable1.genRows u) ∧
    (∀ p ∈ idTable1.rows, "v" ∉ rowCols p.2 → getCol p.2 "v" = .null) :=
  c7_schema_widening idStore1 "t" idTable1 [idRowA, idRowBv] "T2" "v" rfl rfl
    ⟨idRowBv, by decide, by decide⟩

/-- C3: Snapshot Store atomicity and the generation partition: a failing
`write` returns the store unchanged (no partial generation is ever visible),
and a successful append `write` with a fresh timestamp makes the entire row
set visible as exactly one new generation — the new timestamp's rows are
precisely the written rows, every other generation is untouched, the
table's distinct timestamps gain exactly the one new stamp, and every other
table is untouched. -/
theorem c3_generation_atomicity (s : Store) (name : String) (rows : List Row) (ts : String)
    (t : Table)
    (hok : s.broken.contains name = false)
    (hget : s.getTable name = some t)
    (hfresh : ts ∉ t.rows.map Prod.fst)
    (hne : rows ≠ []) :
    (∀ (s₀ : Store) (mode : WriteMode) (e : StoreError),
      (s₀.write name rows ts mode).1 = some e → (s₀.write name rows ts mode).2 = s₀) ∧
    ∃ t', s.write name rows ts .append = (none, s.setTable name t') ∧
      t'.rows = t.rows ++ tagRows ts rows ∧
      t'.genRows ts = rows ∧
      (∀ u, u ≠ ts → t'.genRows u = t.genRows u) ∧
      t'.stamps ~ ts :: t.stamps ∧
      (∀ m, m ≠ name → (s.setTable name t').getTable m = s.getTable m) := by
  constructor
  · intro s₀ mode e h
    by_cases hb : s₀.broken.contains name = true
    · have hmem : name ∈ s₀.broken := List.elem_iff.mp hb
      simp [Store.write, hmem]
    · have hnb : name ∉ s₀.broken := fun hc => hb (List.elem_iff.mpr hc)
      cases mode with
      | append =>
        cases hget₀ : s₀.getTable name with
        | none => simp [Store.write, hnb, hget₀] at h
        | some t₀ => simp [Store.write, hnb, hget₀] at h
      | replace => simp [Store.write, hnb] at h
      | failIfExists =>
        cases hget₀ : s₀.getTable name with
        | none => simp [Store.write, hnb, hget₀] at h
        | some t₀ => simp [Store.write, hnb, hget₀]
  · have hnotin : name ∉ s.broken := by
      intro hc
      have hcontains : s.broken.contains name = true := List.elem_iff.mpr hc
      rw [hok] at hcontains
      cases hcontains
    refine ⟨⟨widen t.schema rows, t.rows ++ tagRows ts rows⟩, ?_, rfl, ?_, ?_, ?_, ?_⟩
    · simp [Store.write, hok, hget, hnotin]
    · rw [genRows_append_self, genRows_mk, genRows_eq_nil_of_fresh hfresh, List.nil_append]
    · intro u hu
      rw [genRows_append_ne hu, genRows_mk]
    · have h1 := stamps_append_fresh (R := t.rows) hfresh hne (widen t.schema rows)
      rw [stamps_mk] at h1
      exact h1
    · intro m hm
      exact getTable_setTable_ne s _ hm

/-- Witness for C3: the second `pool_members` write is atomic and adds
exactly one generation. -/
theorem c3_witness :
    (brokenStore.write "pool_members" [poolRowDown] "2024-01-01_0905" .append).2 =
      brokenStore ∧
    ∃ t', poolStore1.write "pool_members" [poolRowDown] "2024-01-01_0905" .append =
        (none, poolStore1.setTable "pool_members" t') ∧
      t'.rows = poolTable1.rows ++ tagRows "2024-01-01_0905" [poolRowDown] ∧
      t'.genRows "2024-01-01_0905" = [poolRowDown] ∧
      (∀ u, u ≠ "2024-01-01_0905" → t'.genRows u = poolTable1.genRows u) ∧
      t'.stamps ~ "2024-01-01_0905" :: poolTable1.stamps ∧
      (∀ m, m ≠ "pool_members" →
        (poolStore1.setTable "pool_members" t').getTable m = poolStore1.getTable m) :=
  ⟨(c3_generation_atomicity poolStore1 "pool_members" [poolRowDown] "2024-01-01_0905"
      poolTable1 rfl rfl (by decide) (by decide)).1 brokenStore .append .writeError rfl,
    (c3_generation_atomicity poolStore1 "pool_members" [poolRowDown] "2024-01-01_0905"
      poolTable1 rfl rfl (by decide) (by decide)).2⟩


/-- C1: The Orchestrator's `run` returns exactly one outcome per plan row,
in plan order; a row whose collector fails yields a `CollectionFailure`
outcome with the underlying cause and leaves the store untouched, and
processing continues: the remaining rows are processed exactly as they
would be with the failing row absent.  `run` is a total function, so it
never raises for an individual row failure. -/
theorem c1_per_row_failure_isolation (reg : List CollectorDef) (ts : String) (s : Store)
    (xs ys : List PlanRow) (row : PlanRow) (c : CollectorDef) (e : String)
    (hres : resolve reg row.platform row.collector = some c)
    (hinv : c.invoke row.deviceGroup ts = .error e) :
    (∀ (plan : List PlanRow) (s₀ : Store), (run reg plan ts s₀).1.length = plan.length) ∧
    stepRow reg ts s row = (.collectionFailure e, s) ∧
    run reg (xs ++ row :: ys) ts s =
      ((run reg xs ts s).1 ++
          .collectionFailure e :: (run reg ys ts (run reg xs ts s).2).1,
        (run reg ys ts (run reg xs ts s).2).2) ∧
    (run reg (xs ++ row :: ys) ts s).2 = (run reg (xs ++ ys) ts s).2 := by
  have hstep : ∀ s₁ : Store, stepRow reg ts s₁ row = (.collectionFailure e, s₁) := by
    intro s₁
    simp [stepRow, hres, hinv]
  refine ⟨fun plan s₀ => run_length reg plan ts s₀, hstep s, ?_, ?_⟩
  · rw [run_append, run_cons, hstep]
  · rw [run_append, run_cons, hstep, run_append]

/-- Witness for C1 (spec Scenario 4 shape): a failing collector between two
zero-row collectors yields per-row outcomes in order with the middle row
marked as a collection failure. -/
theorem c1_witness :
    (∀ (plan : List PlanRow) (s₀ : Store),
      (run sampleReg plan "2024-01-01_0910" s₀).1.length = plan.length) ∧
    stepRow sampleReg "2024-01-01_0910" poolStore1 failingRow =
      (.collectionFailure "device unreachable", poolStore1) ∧
    run sampleReg ([emptyRow] ++ failingRow :: [emptyRow]) "2024-01-01_0910" poolStore1 =
      ((run sampleReg [emptyRow] "2024-01-01_0910" poolStore1).1 ++
          .collectionFailure "device unreachable" ::
            (run sampleReg [emptyRow] "2024-01-01_0910"
              (run sampleReg [emptyRow] "2024-01-01_0910" poolStore1).2).1,
        (run sampleReg [emptyRow] "2024-01-01_0910"
          (run sampleReg [emptyRow] "2024-01-01_0910" poolStore1).2).2) ∧
    (run sampleReg ([emptyRow] ++ failingRow :: [emptyRow]) "2024-01-01_0910" poolStore1).2 =
      (run sampleReg ([emptyRow] ++ [emptyRow]) "2024-01-01_0910" poolStore1).2 :=
  c1_per_row_failure_isolation sampleReg "2024-01-01_0910" poolStore1 [emptyRow] [emptyRow]
    failingRow failingCollector "device unreachable" rfl rfl

/-- C8: A plan row whose collector succeeds with zero rows performs no
write: the outcome is `NoDataSkipped`, the store is returned untouched, and
a subsequent `readLatestGenerations` on any table returns exactly the
generations that existed before. -/
theorem c8_zero_rows_skip_write (reg : List CollectorDef) (ts : String) (s : Store)
    (row : PlanRow) (c : CollectorDef)
    (hres : resolve reg row.platform row.collector = some c)
    (hinv : c.invoke row.deviceGroup ts = .ok []) :
    stepRow reg ts s row = (.noDataSkipped, s) ∧
    ∀ (tbl : String) (n : Nat),
      ((stepRow reg ts s row).2).readLatestGenerations tbl n =
        s.readLatestGenerations tbl n := by
  have hstep : stepRow reg ts s row = (.noDataSkipped, s) := by
    simp [stepRow, hres, hinv]
  exact ⟨hstep, fun tbl n => by rw [hstep]⟩

/-- Witness for C8 (spec Scenario 5): a zero-row collector leaves the store
as it was. -/
theorem c8_witness :
    stepRow sampleReg "2024-01-01_0910" poolStore1 emptyRow = (.noDataSkipped, poolStore1) ∧
    ∀ (tbl : String) (n : Nat),
      ((stepRow sampleReg "2024-01-01_0910" poolStore1 emptyRow).2).readLatestGenerations
          tbl n =
        poolStore1.readLatestGenerations tbl n :=
  c8_zero_rows_skip_write sampleReg "2024-01-01_0910" poolStore1 emptyRow emptyCollector
    rfl rfl


/-- C10 (implicit behavior of the notebook's Run Collectors cell): one
wall-clock timestamp string at minute resolution (`%Y-%m-%d_%H%M`) is
computed once, before any collector runs, and that same string is passed to
every `rc.collect` invocation and every `rc.add_to_db` write of the run;
the format discards seconds, so two runs started within the same wall-clock
minute produce identical timestamp strings — and appending rows under an
already-present timestamp merges them into the existing generation: the
stored distinct timestamps are unchanged and the rows are indistinguishable
as generations when read back by recency. -/
theorem c10_single_minute_timestamp (now : DateTime) (serials hostgroups : List String)
    (panoRes : String → List Row) (df : List PlanRow)
    (s : Store) (name : String) (t : Table) (rows₂ : List Row)
    (hok : s.broken.contains name = false)
    (hget : s.getTable name = some t)
    (hts : strftimeRunFormat now ∈ t.rows.map Prod.fst) :
    (∀ call ∈ (runCollectorsCell now serials hostgroups panoRes df).collectCalls,
      call.timestamp = strftimeRunFormat now) ∧
    (∀ w ∈ (runCollectorsCell now serials hostgroups panoRes df).dbWrites,
      w.2 = strftimeRunFormat now) ∧
    (∀ d₁ d₂ : DateTime, d₁.year = d₂.year → d₁.month = d₂.month → d₁.day = d₂.day →
      d₁.hour = d₂.hour → d₁.minute = d₂.minute →
      strftimeRunFormat d₁ = strftimeRunFormat d₂) ∧
    ∃ t', s.write name rows₂ (strftimeRunFormat now) .append = (none, s.setTable name t') ∧
      sortStampsDesc t'.stamps = sortStampsDesc t.stamps ∧
      t'.genRows (strftimeRunFormat now) =
        t.genRows (strftimeRunFormat now) ++ rows₂ := by
  have hnotin : name ∉ s.broken := by
    intro hc
    have hcontains : s.broken.contains name = true := List.elem_iff.mpr hc
    rw [hok] at hcontains
    cases hcontains
  refine ⟨?_, ?_, ?_, ?_⟩
  · intro call hc
    simp only [runCollectorsCell, List.mem_map] at hc
    rcases hc with ⟨r, -, rfl⟩
    rfl
  · intro w hw
    simp only [runCollectorsCell] at hw
    split at hw
    · rcases List.mem_map.mp hw with ⟨hg, -, rfl⟩
      rfl
    · cases hw
  · intro d₁ d₂ h₁ h₂ h₃ h₄ h₅
    simp only [strftimeRunFormat, h₁, h₂, h₃, h₄, h₅]
  · refine ⟨⟨widen t.schema rows₂, t.rows ++ tagRows (strftimeRunFormat now) rows₂⟩,
      ?_, ?_, ?_⟩
    · simp [Store.write, hok, hget, hnotin]
    · have h1 := stamps_append_existing hts rows₂ (widen t.schema rows₂)
      rw [stamps_mk] at h1
      exact sortStampsDesc_congr h1
    · rw [genRows_append_self, genRows_mk]

/-- Witness for C10: two runs started at 09:00:30 and 09:00:45 of the same
minute produce the same timestamp string, and a second write under the
already-stored stamp merges into the existing generation of
`pool_members`. -/
theorem c10_witness :
    (∀ call ∈ (runCollectorsCell nowSample [] [] (fun _ => []) [emptyRow]).collectCalls,
      call.timestamp = strftimeRunFormat nowSample) ∧
    (∀ w ∈ (runCollectorsCell nowSample [] [] (fun _ => []) [emptyRow]).dbWrites,
      w.2 = strftimeRunFormat nowSample) ∧
    (∀ d₁ d₂ : DateTime, d₁.year = d₂.year → d₁.month = d₂.month → d₁.day = d₂.day →
      d₁.hour = d₂.hour → d₁.minute = d₂.minute →
      strftimeRunFormat d₁ = strftimeRunFormat d₂) ∧
    ∃ t', poolStore1.write "pool_members" [poolRowDown] (strftimeRunFormat nowSample)
        .append = (none, poolStore1.setTable "pool_members" t') ∧
      sortStampsDesc t'.stamps = sortStampsDesc poolTable1.stamps ∧
      t'.genRows (strftimeRunFormat nowSample) =
        poolTable1.genRows (strftimeRunFormat nowSample) ++ [poolRowDown] :=
  c10_single_minute_timestamp nowSample [] [] (fun _ => []) [emptyRow] poolStore1
    "pool_members" poolTable1 [poolRowDown] rfl rfl (by decide)

end NetManage
